import Mathlib

/-!
Verification development for the MCTS Connect-Four engine of the repository
(`Assignment2/Problem 2`).  The game logic is embedded from `game.py` and
`config.py`; the search engine is embedded from `mcts.py`; the alternative
node selection routine is embedded from `connect4_mcts.py`.

Python's in-place mutation is rendered functionally: node and state updates
are explicit record rebuilds, the backpropagation walk up the parent chain
becomes the return path of the recursive iteration, and the global `random`
module is modelled by an explicit stream of naturals `Rand` together with a
draw counter, so that `random.choice(l)` becomes indexing `l` at the next
draw modulo `l.length`.
-/

namespace GameTech

/-! ### Constants, from `config.py` -/

def ROWS : Nat := 6

def COLS : Nat := 7

def EMPTY : Nat := 0

def PLAYER1 : Nat := 1

def PLAYER2 : Nat := 2

/-! ### Game state, from `game.py` (class `Connect4State`) -/

structure Connect4State where
  board : List (List Nat)
  current_player : Nat
  move_history : List (Nat × Nat × Nat)
deriving DecidableEq, Repr

/-- Cell lookup `board[r][c]`; out-of-range indices (never used by the
source's in-range loops) default to `EMPTY`. -/
def Connect4State.cell (s : Connect4State) (r c : Nat) : Nat :=
  (s.board.getD r []).getD c EMPTY

/-- Fresh empty state, mirroring `Connect4State.__init__` with `board=None`. -/
def Connect4State.new : Connect4State :=
  ⟨List.replicate ROWS (List.replicate COLS EMPTY), PLAYER1, []⟩

/-- Method `clone`: `Connect4State(self.board, self.current_player)`; the
constructor copies the board rows and starts a fresh empty `move_history`. -/
def Connect4State.clone (s : Connect4State) : Connect4State :=
  ⟨s.board, s.current_player, []⟩

/-- Method `get_legal_moves`: columns whose top cell is empty. -/
def Connect4State.get_legal_moves (s : Connect4State) : List Nat :=
  (List.range COLS).filter (fun c => s.cell 0 c == EMPTY)

/-- The row where a piece dropped in `col` lands: the first empty row scanning
from the bottom (`for r in range(ROWS - 1, -1, -1)`). -/
def Connect4State.dropRow (s : Connect4State) (col : Nat) : Option Nat :=
  (List.range ROWS).reverse.find? (fun r => s.cell r col == EMPTY)

def setCell (b : List (List Nat)) (r c v : Nat) : List (List Nat) :=
  b.set r ((b.getD r []).set c v)

/-- Method `make_move`: drop a piece for the current player in `col`, record
it in `move_history`, switch the player, and report success; a full column
leaves the state unchanged and reports failure. -/
def Connect4State.make_move (s : Connect4State) (col : Nat) :
    Connect4State × Bool :=
  match s.dropRow col with
  | some r =>
      let p := s.current_player
      (⟨setCell s.board r col p,
        if p = PLAYER2 then PLAYER1 else PLAYER2,
        s.move_history ++ [(r, col, p)]⟩, true)
  | none => (s, false)

/-- Horizontal scan of `check_winner` (`for c in range(COLS-3): for r in
range(ROWS)`). -/
def Connect4State.scanH (s : Connect4State) : Option Nat :=
  (List.range (COLS - 3)).findSome? fun c =>
    (List.range ROWS).findSome? fun r =>
      let p := s.cell r c
      if p != EMPTY && (List.range 4).all (fun i => s.cell r (c + i) == p)
      then some p else none

/-- Vertical scan of `check_winner`. -/
def Connect4State.scanV (s : Connect4State) : Option Nat :=
  (List.range COLS).findSome? fun c =>
    (List.range (ROWS - 3)).findSome? fun r =>
      let p := s.cell r c
      if p != EMPTY && (List.range 4).all (fun i => s.cell (r + i) c == p)
      then some p else none

/-- Top-left to bottom-right diagonal scan of `check_winner`. -/
def Connect4State.scanD1 (s : Connect4State) : Option Nat :=
  (List.range (COLS - 3)).findSome? fun c =>
    (List.range (ROWS - 3)).findSome? fun r =>
      let p := s.cell r c
      if p != EMPTY && (List.range 4).all (fun i => s.cell (r + i) (c + i) == p)
      then some p else none

/-- Bottom-left to top-right diagonal scan of `check_winner` (`for r in
range(3, ROWS)`). -/
def Connect4State.scanD2 (s : Connect4State) : Option Nat :=
  (List.range (COLS - 3)).findSome? fun c =>
    (List.range' 3 (ROWS - 3)).findSome? fun r =>
      let p := s.cell r c
      if p != EMPTY && (List.range 4).all (fun i => s.cell (r - i) (c + i) == p)
      then some p else none

/-- Method `check_winner`: the four scans in source order, first hit wins. -/
def Connect4State.check_winner (s : Connect4State) : Option Nat :=
  match s.scanH with
  | some p => some p
  | none =>
    match s.scanV with
    | some p => some p
    | none =>
      match s.scanD1 with
      | some p => some p
      | none => s.scanD2

/-- Method `is_full`: the top row has no empty cell. -/
def Connect4State.is_full (s : Connect4State) : Bool :=
  (List.range COLS).all (fun c => s.cell 0 c != EMPTY)

/-- Method `is_terminal`: a winner exists or the board is full. -/
def Connect4State.is_terminal (s : Connect4State) : Bool :=
  s.check_winner.isSome || s.is_full

/-! ### Randomness model

The global `random` module is modelled by a fixed stream `σ : Rand` of
naturals and a draw counter `k`; `random.choice(l)` reads the next stream
value modulo `l.length`. -/

abbrev Rand := Nat → Nat

/-- Model of `random.choice(l)`: pick the element indexed by the next draw;
the source never calls it on an empty list. -/
def rchoice [Inhabited α] (σ : Rand) (k : Nat) (l : List α) : α × Nat :=
  (l.getD (σ k % l.length) default, k + 1)

/-! ### MCTS tree nodes, from `mcts.py` (class `MCTSNode`)

The Python node's `parent` back-pointer exists only so that backpropagation
can walk up the path; in the functional rendering that walk is the return
path of the recursive iteration, so the field is not stored. -/

inductive Node : Type where
  | mk (state : Connect4State) (move : Option Nat) (children : List Node)
      (visits : Nat) (wins : ℚ) (untried_moves : List Nat) : Node

def Node.state : Node → Connect4State
  | .mk s _ _ _ _ _ => s

def Node.move : Node → Option Nat
  | .mk _ m _ _ _ _ => m

def Node.children : Node → List Node
  | .mk _ _ c _ _ _ => c

def Node.visits : Node → Nat
  | .mk _ _ _ v _ _ => v

def Node.wins : Node → ℚ
  | .mk _ _ _ _ w _ => w

def Node.untried_moves : Node → List Nat
  | .mk _ _ _ _ _ u => u

instance : Inhabited Node := ⟨.mk Connect4State.new none [] 0 0 []⟩

/-- Constructor `MCTSNode.__init__`: fresh counters, no children, and
`untried_moves` initialised to the legal moves of the stored state. -/
def Node.make (s : Connect4State) (mv : Option Nat) : Node :=
  .mk s mv [] 0 0 s.get_legal_moves

/-- Method `is_fully_expanded`: all legal moves have been tried. -/
def Node.is_fully_expanded (n : Node) : Bool :=
  n.untried_moves.isEmpty

/-- The UCT score used by `MCTSNode.best_child` in `mcts.py`, with the
default `c_param = 1.4`:
`child.wins / child.visits + 1.4 * sqrt(2 * log(self.visits) / child.visits)`. -/
noncomputable def uctScore (parentVisits : Nat) (c : Node) : ℝ :=
  (c.wins : ℝ) / (c.visits : ℝ) +
    1.4 * Real.sqrt (2 * Real.log (parentVisits : ℝ) / (c.visits : ℝ))

/-- Index of the child selected by `max(self.children, key=...)`: Python's
`max` keeps the first element and replaces it only on a strictly greater
key, so this is the index of the first child attaining the maximal score. -/
noncomputable def argmaxFrom (pv : Nat) (bi : Nat) (bs : Node) (i : Nat) :
    List Node → Nat
  | [] => bi
  | c :: cs =>
      if uctScore pv c > uctScore pv bs then argmaxFrom pv i c (i + 1) cs
      else argmaxFrom pv bi bs (i + 1) cs

/-- Index form of `MCTSNode.best_child` from `mcts.py` (index 0 on an empty
list, where the source would raise). -/
noncomputable def Node.bestChildIdx (n : Node) : Nat :=
  match n.children with
  | [] => 0
  | c :: cs => argmaxFrom n.visits 0 c 1 cs

/-- Method `MCTSNode.best_child` from `mcts.py` itself. -/
noncomputable def Node.best_child (n : Node) : Node :=
  n.children.getD n.bestChildIdx default

/-- Method `get_ucb_score`: zero for an unvisited node or for the root
(modelled by passing the parent's visits as an `Option`), otherwise
exploitation plus exploration. -/
noncomputable def Node.get_ucb_score (n : Node) (parentVisits : Option Nat) : ℝ :=
  match parentVisits with
  | none => 0
  | some pv =>
      if n.visits = 0 then 0
      else (n.wins : ℝ) / (n.visits : ℝ) +
        1.4 * Real.sqrt (2 * Real.log (pv : ℝ) / (n.visits : ℝ))

/-- Auxiliary fold of `most_visited_child`: Python `max` keeps the first
element with the maximal visit count. -/
def mvcAux (b : Node) : List Node → Node
  | [] => b
  | c :: cs => if c.visits > b.visits then mvcAux c cs else mvcAux b cs

/-- Method `most_visited_child`: `max(self.children, key=visits,
default=None)`. -/
def Node.most_visited_child (n : Node) : Option Node :=
  match n.children with
  | [] => none
  | c :: cs => some (mvcAux c cs)

/-! ### Rollout, from `mcts.py` (`rollout`) -/

/-- Random play-out loop of `rollout`: while the state is not terminal, make
a uniformly drawn legal move.  The loop consumes one empty cell per step, so
the `ROWS * COLS + 1` fuel supplied by `rollout` below is never exhausted. -/
def rolloutLoop (σ : Rand) : Nat → Connect4State → Nat → Connect4State × Nat
  | 0, s, k => (s, k)
  | f + 1, s, k =>
      if s.is_terminal then (s, k)
      else
        let (m, k₁) := rchoice σ k s.get_legal_moves
        rolloutLoop σ f (s.make_move m).1 k₁

/-- Function `rollout`: simulate on a clone until terminal; reward 1 if the
winner is the root player, 1/2 on a draw, 0 otherwise. -/
def rollout (σ : Rand) (s : Connect4State) (root_player : Nat) (k : Nat) :
    ℚ × Nat :=
  let (t, k₁) := rolloutLoop σ (ROWS * COLS + 1) s.clone k
  match t.check_winner with
  | some w => if w = root_player then (1, k₁) else (0, k₁)
  | none => (1/2, k₁)

/-! ### The search iteration, from `mcts_search` in `mcts.py`

One iteration = selection + expansion + simulation + backpropagation.  The
selection `while` descends through `best_child`; functionally this is a
recursion into the selected child, and backpropagation (`+1` visit, `+reward`
wins at every node of the path) happens on the way back up.  The recursion is
driven by a fuel that `iterate` instantiates with `sizeOf` of the tree, an
upper bound on the selection depth, so the fuel-exhaustion branch is never
taken from `iterate`. -/

noncomputable def iterF (σ : Rand) (root_player : Nat) :
    Nat → Node → Nat → Node × ℚ × Nat
  | 0, n, k => (n, 0, k)
  | f + 1, n, k =>
      if n.is_fully_expanded && !n.children.isEmpty then
        -- Selection: descend into the best child
        let i := n.bestChildIdx
        let c := n.children.getD i default
        let (c₁, r, k₁) := iterF σ root_player f c k
        (.mk n.state n.move (n.children.set i c₁) (n.visits + 1) (n.wins + r)
          n.untried_moves, r, k₁)
      else if !n.untried_moves.isEmpty then
        -- Expansion: try an untried move, then simulate from the new child
        let (m, k₁) := rchoice σ k n.untried_moves
        let next_state := (n.state.clone.make_move m).1
        let (r, k₂) := rollout σ next_state root_player k₁
        let child := Node.make next_state (some m)
        let child₁ := Node.mk child.state child.move child.children
          (child.visits + 1) (child.wins + r) child.untried_moves
        (.mk n.state n.move (n.children ++ [child₁]) (n.visits + 1)
          (n.wins + r) (n.untried_moves.erase m), r, k₂)
      else
        -- Leaf with no untried moves: simulate from this node's state
        let (r, k₁) := rollout σ n.state root_player k
        (.mk n.state n.move n.children (n.visits + 1) (n.wins + r)
          n.untried_moves, r, k₁)

/-- One full MCTS iteration on the tree rooted at `n`. -/
noncomputable def iterate (σ : Rand) (root_player : Nat) (n : Node) (k : Nat) :
    Node × ℚ × Nat :=
  iterF σ root_player (sizeOf n + 1) n k

/-- The `for _ in range(n_iter)` loop of `mcts_search`. -/
noncomputable def mctsLoop (σ : Rand) (root_player : Nat) :
    Nat → Node → Nat → Node × Nat
  | 0, t, k => (t, k)
  | n + 1, t, k =>
      let (t₁, _, k₁) := iterate σ root_player t k
      mctsLoop σ root_player n t₁ k₁

/-- The search tree after running `n_iter` iterations of `mcts_search` from
`root_state` (root node built on a clone, root player read off the state). -/
noncomputable def treeAfter (root_state : Connect4State) (n_iter : Nat)
    (σ : Rand) (k : Nat) : Node :=
  (mctsLoop σ root_state.current_player n_iter
    (Node.make root_state.clone none) k).1

/-! ### Statistics and the search entry point, from `mcts_search` -/

structure MCTSStats where
  visits : List (Nat × Nat)
  win_rates : List (Nat × ℚ)
  ucb_scores : List (Nat × ℝ)
  best_move : Option Nat
  best_ucb : ℝ

/-- The `{}` returned for a terminal root. -/
def emptyStats : MCTSStats := ⟨[], [], [], none, 0⟩

/-- The per-child statistics dictionary built at the end of `mcts_search`;
dictionary keys (child moves, pairwise distinct) become association-list
keys in children order. -/
noncomputable def collectStats (t : Node) : MCTSStats :=
  let best := t.most_visited_child
  { visits := t.children.map (fun c => (c.move.getD 0, c.visits))
    win_rates := t.children.map (fun c =>
      (c.move.getD 0, if c.visits > 0 then c.wins / (c.visits : ℚ) else 0))
    ucb_scores := t.children.map (fun c =>
      (c.move.getD 0, c.get_ucb_score (some t.visits)))
    best_move := best.bind Node.move
    best_ucb := match best with
      | some b => b.get_ucb_score (some t.visits)
      | none => 0 }

/-- Function `mcts_search`: `(None, {})` on a terminal root, otherwise run
`n_iter` iterations and return the move of the most visited root child
together with the statistics.  The final `Nat` is the RNG draw counter. -/
noncomputable def mcts_search (root_state : Connect4State) (n_iter : Nat)
    (σ : Rand) (k : Nat) : (Option Nat × MCTSStats) × Nat :=
  if root_state.is_terminal then ((none, emptyStats), k)
  else
    let t := treeAfter root_state n_iter σ k
    let k₁ := (mctsLoop σ root_state.current_player n_iter
      (Node.make root_state.clone none) k).2
    let best := t.most_visited_child
    ((best.bind Node.move, collectStats t), k₁)

/-- Caller-state threading of `mcts_search`: every operation the source
applies to the caller's `root_state` object (`is_terminal`,
`current_player`, `clone`) is a read, so the caller's object, threaded
through the body, leaves the call with exactly the state it entered with.
The second component is the caller's state after the call. -/
noncomputable def mcts_searchT (root_state : Connect4State) (n_iter : Nat)
    (σ : Rand) (k : Nat) :
    ((Option Nat × MCTSStats) × Nat) × Connect4State :=
  if root_state.is_terminal then (((none, emptyStats), k), root_state)
  else
    let t := treeAfter root_state n_iter σ k
    let k₁ := (mctsLoop σ root_state.current_player n_iter
      (Node.make root_state.clone none) k).2
    let best := t.most_visited_child
    (((best.bind Node.move, collectStats t), k₁), root_state)

/-! ### The node selection of `connect4_mcts.py` (class `MCTSNode` there)

This variant guards unvisited children with an infinite score (modelled in
`EReal`) and breaks ties among maximal-score children with `random.choice`.
Only the node structure and `best_child` are needed by the claims; the
fields unused by `best_child` (`state`, `parent`) are dropped. -/

inductive CNode : Type where
  | mk (move : Option Nat) (children : List CNode) (visits : Nat)
      (wins : ℚ) : CNode

def CNode.move : CNode → Option Nat
  | .mk m _ _ _ => m

def CNode.children : CNode → List CNode
  | .mk _ c _ _ => c

def CNode.visits : CNode → Nat
  | .mk _ _ v _ => v

def CNode.wins : CNode → ℚ
  | .mk _ _ _ w => w

instance : Inhabited CNode := ⟨.mk none [] 0 0⟩

/-- The score `best_child` of `connect4_mcts.py` computes for a child:
`float("inf")` for an unvisited child, otherwise
`wins/visits + 1.4 * sqrt(2 * log(self.visits) / visits)`. -/
noncomputable def cScore (parentVisits : Nat) (c : CNode) : EReal :=
  if c.visits = 0 then ⊤
  else (((c.wins : ℝ) / (c.visits : ℝ) +
    1.4 * Real.sqrt (2 * Real.log (parentVisits : ℝ) / (c.visits : ℝ)) : ℝ) :
      EReal)

/-- The accumulation loop of `best_child` in `connect4_mcts.py`: starting
from `best_score = float("-inf")` and an empty list, a strictly greater
score restarts the list, an equal score appends, a smaller score is
dropped. -/
noncomputable def bestLoop (pv : Nat) :
    List CNode → EReal → List CNode → EReal × List CNode
  | [], bs, bl => (bs, bl)
  | c :: cs, bs, bl =>
      let s := cScore pv c
      if s > bs then bestLoop pv cs s [c]
      else if s = bs then bestLoop pv cs bs (bl ++ [c])
      else bestLoop pv cs bs bl

/-- Method `best_child` of `connect4_mcts.py`: collect all children of
maximal score and pick one with `random.choice`. -/
noncomputable def CNode.best_child (n : CNode) (σ : Rand) (k : Nat) :
    CNode × Nat :=
  let bl := (bestLoop n.visits n.children ⊥ []).2
  rchoice σ k bl

/-! ### Heuristic override

Modelled from the spec: `immediate_tactical_move` appears in the
specification (one-ply win, else unique one-ply block) but no source file
under `src/` defines it; the definitions below follow the spec's words in
section 4.4. -/

/-- Modelled from the spec: the result of `p` dropping a piece in column `m`
of `s` is an immediate win for `p`. -/
def winsFor (s : Connect4State) (p : Nat) (m : Nat) : Bool :=
  ((Connect4State.mk s.board p []).make_move m).1.check_winner == some p

/-- Modelled from the spec: `immediate_tactical_move(state)` — if any legal
move immediately wins for the mover, play it; otherwise if exactly one
legal reply would immediately win for the opponent, play the move that
removes that reply; otherwise no override. -/
def immediate_tactical_move (s : Connect4State) : Option Nat :=
  match s.get_legal_moves.find? (fun m => winsFor s s.current_player m) with
  | some m => some m
  | none =>
      let opponent := if s.current_player = PLAYER2 then PLAYER1 else PLAYER2
      match s.get_legal_moves.filter (fun m => winsFor s opponent m) with
      | [t] => some t
      | _ => none

/-! ### Projection lemmas and tree membership -/

@[simp] lemma Node.state_mk (s m c v w u) :
    Node.state (.mk s m c v w u) = s := rfl

@[simp] lemma Node.move_mk (s m c v w u) :
    Node.move (.mk s m c v w u) = m := rfl

@[simp] lemma Node.children_mk (s m c v w u) :
    Node.children (.mk s m c v w u) = c := rfl

@[simp] lemma Node.visits_mk (s m c v w u) :
    Node.visits (.mk s m c v w u) = v := rfl

@[simp] lemma Node.wins_mk (s m c v w u) :
    Node.wins (.mk s m c v w u) = w := rfl

@[simp] lemma Node.untried_mk (s m c v w u) :
    Node.untried_moves (.mk s m c v w u) = u := rfl

@[simp] lemma CNode.cmove_mk (m c v w) : CNode.move (.mk m c v w) = m := rfl

@[simp] lemma CNode.cchildren_mk (m c v w) :
    CNode.children (.mk m c v w) = c := rfl

@[simp] lemma CNode.cvisits_mk (m c v w) : CNode.visits (.mk m c v w) = v := rfl

@[simp] lemma CNode.cwins_mk (m c v w) : CNode.wins (.mk m c v w) = w := rfl

/-- Occurrence of a node in a search tree: the root itself, or a node of a
child's subtree. -/
inductive InTree : Node → Node → Prop where
  | base (t : Node) : InTree t t
  | step {t c m : Node} : c ∈ t.children → InTree c m → InTree t m

lemma inTree_cases {t x : Node} (h : InTree t x) :
    x = t ∨ ∃ c ∈ t.children, InTree c x := by
  cases h with
  | base => exact Or.inl rfl
  | step hc hm => exact Or.inr ⟨_, hc, hm⟩

/-! ### Concrete scenario states -/

/-- The all-zero random stream. -/
def σ0 : Rand := fun _ => 0

/-- Terminal state: player 1 has a vertical four in column 0. -/
def exTermState : Connect4State :=
  ⟨[[0,0,0,0,0,0,0],
    [0,0,0,0,0,0,0],
    [1,0,0,0,0,0,0],
    [1,0,0,0,0,0,0],
    [1,2,0,0,0,0,0],
    [1,2,2,0,0,0,0]], 2, []⟩

/-- Non-terminal state with a single legal move (column 0) whose play fills
the board into a draw: a full drawn pattern minus its top-left cell. -/
def exRunState : Connect4State :=
  ⟨[[0,2,1,2,1,2,1],
    [1,2,1,2,1,2,1],
    [2,1,2,1,2,1,2],
    [2,1,2,1,2,1,2],
    [1,2,1,2,1,2,1],
    [1,2,1,2,1,2,1]], 1, []⟩

/-- Non-terminal state with a single legal move (column 0): dropping there
completes a vertical four for player 1, yet leaves the top cell of column 0
empty, so the resulting terminal state still has a legal move. -/
def exC4State : Connect4State :=
  ⟨[[0,2,1,2,1,2,1],
    [0,2,1,2,1,2,1],
    [1,1,2,1,2,1,2],
    [1,1,2,1,2,1,2],
    [1,2,1,2,1,2,1],
    [2,2,1,2,1,2,1]], 1, []⟩

/-! ### Claims C3, C5, C8, C9 -/

/-- Claim C3: for every terminal root state (a winner exists or the board is
full), `mcts_search` returns immediately with `(None, {})`, before any tree
construction or iteration, leaving the RNG untouched. -/
theorem claim_C3 (s : Connect4State) (n : Nat) (σ : Rand) (k : Nat)
    (h : s.is_terminal = true) :
    mcts_search s n σ k = ((none, emptyStats), k) := by
  simp [mcts_search, h]

theorem claim_C3_witness :
    exTermState.is_terminal = true ∧
      mcts_search exTermState 5 σ0 0 = ((none, emptyStats), 0) :=
  ⟨by decide, claim_C3 exTermState 5 σ0 0 (by decide)⟩

/-- Claim C8: `mcts_search` leaves the caller's state unchanged (same board
and same current player after the call): every operation the source applies
to `root_state` is a read or a `clone`, rendered by the caller-state
threading `mcts_searchT`, whose result agrees with `mcts_search` while the
threaded caller state leaves the call exactly as it entered; moreover
`clone` itself reproduces the board and the player. -/
theorem claim_C8 (s : Connect4State) (n : Nat) (σ : Rand) (k : Nat) :
    (mcts_searchT s n σ k).2 = s ∧
      (mcts_searchT s n σ k).1 = mcts_search s n σ k ∧
      s.clone.board = s.board ∧ s.clone.current_player = s.current_player := by
  refine ⟨?_, ?_, rfl, rfl⟩
  · unfold mcts_searchT
    split <;> rfl
  · unfold mcts_searchT mcts_search
    split <;> rfl

/-- Claim C9: whenever some legal move immediately wins for the player to
move, `immediate_tactical_move` (modelled from the spec) returns such a
winning move, independently of any iteration budget — the function performs
no search at all. -/
theorem claim_C9 (s : Connect4State)
    (h : s.get_legal_moves.any (fun m => winsFor s s.current_player m) = true) :
    ∃ m, immediate_tactical_move s = some m ∧ m ∈ s.get_legal_moves ∧
      winsFor s s.current_player m = true := by
  obtain ⟨m, hm, hp⟩ := List.any_eq_true.mp h
  cases hf : s.get_legal_moves.find? (fun m => winsFor s s.current_player m) with
  | none => exact absurd hp (by simpa using List.find?_eq_none.mp hf m hm)
  | some m₀ =>
      exact ⟨m₀, by simp [immediate_tactical_move, hf],
        List.mem_of_find?_eq_some hf, List.find?_some hf⟩

theorem claim_C9_witness :
    exC4State.get_legal_moves.any
      (fun m => winsFor exC4State exC4State.current_player m) = true ∧
    ∃ m, immediate_tactical_move exC4State = some m ∧
      m ∈ exC4State.get_legal_moves ∧
      winsFor exC4State exC4State.current_player m = true :=
  ⟨by decide, claim_C9 exC4State (by decide)⟩

/-- Counterexample to claim C5: with `n_iter = 0` on a non-terminal root,
`mcts_search` is not rejected before tree work begins: it constructs the
root node (whose `untried_moves` have been computed from the board) and
produces an ordinary search result `(None, empty stats)` — no configuration
error exists anywhere in the code. -/
theorem claim_C5_cex :
    Connect4State.new.is_terminal = false ∧
      mcts_search Connect4State.new 0 σ0 0 = ((none, emptyStats), 0) ∧
      treeAfter Connect4State.new 0 σ0 0 =
        Node.make Connect4State.new.clone none ∧
      (treeAfter Connect4State.new 0 σ0 0).untried_moves
        = [0, 1, 2, 3, 4, 5, 6] := by
  refine ⟨by decide, by rfl, by rfl, by rfl⟩

/-- Claim C5 as amended: `mcts_search` performs no validation of `n_iter`
(and has no exploration-constant parameter at all): called with a zero
iteration budget on a non-terminal root it still constructs the root node,
runs zero iterations and returns the ordinary result `(None, empty stats)`
rather than reporting a configuration error. -/
theorem claim_C5 (s : Connect4State) (σ : Rand) (k : Nat)
    (h : s.is_terminal = false) :
    mcts_search s 0 σ k = ((none, emptyStats), k) := by
  simp [mcts_search, h, treeAfter, mctsLoop, collectStats, Node.make,
    Node.most_visited_child, emptyStats]

theorem claim_C5_witness :
    exRunState.is_terminal = false ∧
      mcts_search exRunState 0 σ0 0 = ((none, emptyStats), 0) :=
  ⟨by decide, claim_C5 exRunState σ0 0 (by decide)⟩

/-! ### Claim C1 -/
lemma mvcAux_mem : ∀ (l : List Node) (b : Node), mvcAux b l ∈ b :: l := by
  intro l
  induction l with
  | nil => intro b; simp [mvcAux]
  | cons c cs ih =>
      intro b
      simp only [mvcAux]
      split
      · have := ih c
        simp only [List.mem_cons] at this ⊢
        tauto
      · have := ih b
        simp only [List.mem_cons] at this ⊢
        tauto

lemma mvcAux_le : ∀ (l : List Node) (b x : Node), x ∈ b :: l →
    x.visits ≤ (mvcAux b l).visits := by
  intro l
  induction l with
  | nil => intro b x hx; simp at hx; simp [mvcAux, hx]
  | cons c cs ih =>
      intro b x hx
      simp only [List.mem_cons] at hx
      simp only [mvcAux]
      split
      · rename_i hgt
        have hbase : ∀ y ∈ c :: cs, y.visits ≤ (mvcAux c cs).visits :=
          fun y hy => ih c y hy
        rcases hx with h1 | h1 | h1
        · rw [h1]; exact le_trans (le_of_lt hgt) (hbase c (by simp))
        · rw [h1]; exact hbase c (by simp)
        · exact hbase x (by simp [h1])
      · rename_i hle
        push_neg at hle
        have hbase : ∀ y ∈ b :: cs, y.visits ≤ (mvcAux b cs).visits :=
          fun y hy => ih b y hy
        rcases hx with h1 | h1 | h1
        · rw [h1]; exact hbase b (by simp)
        · rw [h1]; exact le_trans hle (hbase b (by simp))
        · exact hbase x (by simp [h1])

lemma most_visited_child_spec : ∀ (nd c : Node),
    nd.most_visited_child = some c →
    c ∈ nd.children ∧ ∀ x ∈ nd.children, x.visits ≤ c.visits := by
  intro nd c h
  cases nd with
  | mk s m ch v w u =>
      simp only [Node.most_visited_child, Node.children_mk] at h ⊢
      cases ch with
      | nil => exact absurd h (by simp)
      | cons b l =>
          simp only [Option.some.injEq] at h
          subst h
          exact ⟨mvcAux_mem l b, fun x hx => mvcAux_le l b x hx⟩

/-- Claim C1 as amended: for a non-terminal root the move returned by
`mcts_search` is the move of the root's most-visited child as computed by
`most_visited_child`, and `most_visited_child` returns a child with the
largest visit count — but ties among equally-most-visited children are
broken deterministically in favour of the earliest child, not at random. -/
theorem claim_C1 (s : Connect4State) (n : Nat) (σ : Rand) (k : Nat)
    (h : s.is_terminal = false) :
    (mcts_search s n σ k).1.1 =
      ((treeAfter s n σ k).most_visited_child).bind Node.move ∧
    ∀ (nd c : Node), nd.most_visited_child = some c →
      c ∈ nd.children ∧ ∀ x ∈ nd.children, x.visits ≤ c.visits := by
  constructor
  · simp [mcts_search, h]
  · exact most_visited_child_spec

def tieA : Node := .mk Connect4State.new (some 3) [] 1 (1/2) []

def tieB : Node := .mk Connect4State.new (some 5) [] 1 (1/2) []

def tieParent : Node := .mk Connect4State.new none [tieA, tieB] 2 1 []

/-- Counterexample to claim C1: a root with two equally-most-visited
children; `most_visited_child` (Python `max`) always returns the first one,
so the second tied child is never the result for any RNG state —
tie-breaking is not uniform over the tied children. -/
theorem claim_C1_cex :
    tieParent.most_visited_child = some tieA ∧
      tieB ∈ tieParent.children ∧ tieB.visits = tieA.visits ∧
      tieA.move ≠ tieB.move := by
  refine ⟨rfl, by simp [tieParent], rfl, by decide⟩

theorem claim_C1_witness :
    exRunState.is_terminal = false ∧
      ((mcts_search exRunState 1 σ0 0).1.1 =
        ((treeAfter exRunState 1 σ0 0).most_visited_child).bind Node.move ∧
      ∀ (nd c : Node), nd.most_visited_child = some c →
        c ∈ nd.children ∧ ∀ x ∈ nd.children, x.visits ≤ c.visits) :=
  ⟨by decide, claim_C1 exRunState 1 σ0 0 (by decide)⟩

/-! ### Claim C2 -/

lemma argmaxFrom_spec : ∀ (cs pre : List Node) (pv bi : Nat) (bs : Node),
    bi < pre.length → pre.getD bi default = bs →
    (∀ x ∈ pre, uctScore pv x ≤ uctScore pv bs) →
    argmaxFrom pv bi bs pre.length cs < (pre ++ cs).length ∧
    ∀ x ∈ pre ++ cs, uctScore pv x ≤
      uctScore pv ((pre ++ cs).getD (argmaxFrom pv bi bs pre.length cs) default) := by
  intro cs
  induction cs with
  | nil =>
      intro pre pv bi bs h1 h2 h3
      simp only [argmaxFrom, List.append_nil]
      exact ⟨h1, fun x hx => by rw [List.getD_eq_getElem _ _ h1,
        ← List.getD_eq_getElem pre default h1, h2]; exact h3 x hx⟩
  | cons c cs ih =>
      intro pre pv bi bs h1 h2 h3
      simp only [argmaxFrom]
      split
      · rename_i hgt
        have h1' : pre.length < (pre ++ [c]).length := by simp
        have h2' : (pre ++ [c]).getD pre.length default = c := by
          rw [List.getD_append_right _ _ _ _ (le_refl _)]
          simp
        have h3' : ∀ x ∈ pre ++ [c], uctScore pv x ≤ uctScore pv c := by
          intro x hx
          rcases List.mem_append.mp hx with hx | hx
          · exact le_trans (h3 x hx) (le_of_lt hgt)
          · simp at hx; rw [hx]
        have := ih (pre ++ [c]) pv pre.length c h1' h2' h3'
        simpa [List.append_assoc] using this
      · rename_i hng
        have hle : uctScore pv c ≤ uctScore pv bs := not_lt.mp hng
        have h1' : bi < (pre ++ [c]).length := by
          simp only [List.length_append, List.length_cons, List.length_nil]
          omega
        have h2' : (pre ++ [c]).getD bi default = bs := by
          rw [List.getD_append _ _ _ _ h1, h2]
        have h3' : ∀ x ∈ pre ++ [c], uctScore pv x ≤ uctScore pv bs := by
          intro x hx
          rcases List.mem_append.mp hx with hx | hx
          · exact h3 x hx
          · simp at hx; rw [hx]; exact hle
        have := ih (pre ++ [c]) pv bi bs h1' h2' h3'
        simpa [List.append_assoc] using this

lemma best_child_spec (n : Node) (h : ¬ n.children = []) :
    n.best_child ∈ n.children ∧
    ∀ x ∈ n.children, uctScore n.visits x ≤ uctScore n.visits n.best_child := by
  rcases hch : n.children with _ | ⟨c, cs⟩
  · exact absurd hch h
  · have hspec := argmaxFrom_spec cs [c] n.visits 0 c (by simp) rfl
      (by intro x hx; simp at hx; rw [hx])
    simp only [List.length_cons, List.length_nil, List.singleton_append] at hspec
    obtain ⟨hlt, hmax⟩ := hspec
    have hbc : n.best_child = (c :: cs).getD n.bestChildIdx default := by
      simp only [Node.best_child, Node.bestChildIdx, hch]
    have hidx : n.bestChildIdx = argmaxFrom n.visits 0 c 1 cs := by
      simp only [Node.bestChildIdx, hch]
    simp only [Nat.zero_add] at hlt hmax
    rw [hbc, hidx]
    refine ⟨?_, hmax⟩
    have hlt2 : argmaxFrom n.visits 0 c 1 cs < (c :: cs).length := by
      simpa using hlt
    rw [List.getD_eq_getElem _ _ hlt2]
    exact List.getElem_mem _
lemma cScore_ne_bot (pv : Nat) (u : CNode) : cScore pv u ≠ ⊥ := by
  unfold cScore
  split
  · simp
  · exact EReal.coe_ne_bot _

lemma cScore_eq_top_iff (pv : Nat) (u : CNode) :
    cScore pv u = ⊤ ↔ u.visits = 0 := by
  unfold cScore
  split
  · rename_i h; simp [h]
  · rename_i h
    constructor
    · intro hc; exact absurd hc (EReal.coe_ne_top _)
    · intro hc; exact absurd hc h

lemma bestLoop_spec : ∀ (l : List CNode) (bs : EReal) (bl : List CNode)
    (pv : Nat), (∀ x ∈ bl, cScore pv x = bs) →
    bs ≤ (bestLoop pv l bs bl).1 ∧
    (∀ c ∈ l, cScore pv c ≤ (bestLoop pv l bs bl).1) ∧
    (∀ x ∈ (bestLoop pv l bs bl).2, cScore pv x = (bestLoop pv l bs bl).1) ∧
    (∀ x ∈ (bestLoop pv l bs bl).2, x ∈ bl ∨ x ∈ l) ∧
    (∀ c ∈ l, cScore pv c = (bestLoop pv l bs bl).1 →
      c ∈ (bestLoop pv l bs bl).2) ∧
    (∀ x ∈ bl, cScore pv x = (bestLoop pv l bs bl).1 →
      x ∈ (bestLoop pv l bs bl).2) ∧
    ((¬ bl = []) → ¬ (bestLoop pv l bs bl).2 = []) ∧
    ((∃ c ∈ l, bs < cScore pv c) → ¬ (bestLoop pv l bs bl).2 = []) := by
  intro l
  induction l with
  | nil =>
      intro bs bl pv hbl
      simp only [bestLoop]
      refine ⟨le_refl _, by simp, hbl, fun x hx => Or.inl hx, by simp,
        fun x hx _ => hx, fun h => h, by simp⟩
  | cons c cs ih =>
      intro bs bl pv hbl
      simp only [bestLoop]
      split
      · rename_i hgt
        obtain ⟨i1, i2, i3, i4, i5, i6, i7, i8⟩ :=
          ih (cScore pv c) [c] pv (by simp)
        have hbslt : bs < (bestLoop pv cs (cScore pv c) [c]).1 :=
          lt_of_lt_of_le hgt i1
        refine ⟨le_of_lt hbslt, ?_, i3, ?_, ?_, ?_, fun _ => i7 (by simp),
          fun _ => i7 (by simp)⟩
        · intro y hy
          rcases List.mem_cons.mp hy with h1 | h1
          · rw [h1]; exact i1
          · exact i2 y h1
        · intro x hx
          rcases i4 x hx with h1 | h1
          · simp only [List.mem_singleton] at h1
            exact Or.inr (by simp [h1])
          · exact Or.inr (by simp [h1])
        · intro y hy hsc
          rcases List.mem_cons.mp hy with h1 | h1
          · subst h1; exact i6 y (by simp) hsc
          · exact i5 y h1 hsc
        · intro x hx hsc
          exact absurd hsc (by rw [hbl x hx]; exact ne_of_lt hbslt)
      · rename_i hng
        split
        · rename_i heq
          obtain ⟨i1, i2, i3, i4, i5, i6, i7, i8⟩ :=
            ih bs (bl ++ [c]) pv (by
              intro x hx
              rcases List.mem_append.mp hx with h1 | h1
              · exact hbl x h1
              · simp only [List.mem_singleton] at h1; rw [h1]; exact heq)
          refine ⟨i1, ?_, i3, ?_, ?_, ?_, fun _ => i7 (by simp),
            fun _ => i7 (by simp)⟩
          · intro y hy
            rcases List.mem_cons.mp hy with h1 | h1
            · rw [h1, heq]; exact i1
            · exact i2 y h1
          · intro x hx
            rcases i4 x hx with h1 | h1
            · rcases List.mem_append.mp h1 with h2 | h2
              · exact Or.inl h2
              · simp only [List.mem_singleton] at h2
                exact Or.inr (by simp [h2])
            · exact Or.inr (by simp [h1])
          · intro y hy hsc
            rcases List.mem_cons.mp hy with h1 | h1
            · subst h1; exact i6 y (by simp) hsc
            · exact i5 y h1 hsc
          · intro x hx hsc
            exact i6 x (List.mem_append_left _ hx) hsc
        · rename_i hne
          have hlt : cScore pv c < bs :=
            lt_of_le_of_ne (not_lt.mp hng) hne
          obtain ⟨i1, i2, i3, i4, i5, i6, i7, i8⟩ := ih bs bl pv hbl
          refine ⟨i1, ?_, i3, ?_, ?_, i6, i7, ?_⟩
          · intro y hy
            rcases List.mem_cons.mp hy with h1 | h1
            · rw [h1]; exact le_trans (le_of_lt hlt) i1
            · exact i2 y h1
          · intro x hx
            rcases i4 x hx with h1 | h1
            · exact Or.inl h1
            · exact Or.inr (by simp [h1])
          · intro y hy hsc
            rcases List.mem_cons.mp hy with h1 | h1
            · exact absurd hsc
                (by rw [h1]; exact ne_of_lt (lt_of_lt_of_le hlt i1))
            · exact i5 y h1 hsc
          · rintro ⟨y, hy, hylt⟩
            rcases List.mem_cons.mp hy with h1 | h1
            · exact absurd hylt (by rw [h1]; exact not_lt.mpr (le_of_lt hlt))
            · exact i8 ⟨y, h1, hylt⟩
/-- Claim C2 as amended: the `best_child` of `connect4_mcts.py` (first
conjunct) does satisfy the claim — it returns a child of maximal score,
where an unvisited child scores infinity and is therefore always chosen
before any visited child, and every maximal-score child is reachable
through some RNG state; the `best_child` of `mcts.py` (second conjunct)
instead deterministically returns the first child maximizing
`w/n + 1.4*sqrt(2 ln(parent.n)/n)`, with no zero-visit guard and no
randomized tie-breaking. -/
theorem claim_C2 :
    (∀ (cn : CNode) (σ : Rand) (k : Nat), ¬ cn.children = [] →
      (cn.best_child σ k).1 ∈ cn.children ∧
      (∀ x ∈ cn.children,
        cScore cn.visits x ≤ cScore cn.visits (cn.best_child σ k).1) ∧
      ((∃ u ∈ cn.children, u.visits = 0) → ((cn.best_child σ k).1).visits = 0) ∧
      (∀ x ∈ cn.children,
        cScore cn.visits x = cScore cn.visits (cn.best_child σ k).1 →
        ∃ (σ₂ : Rand) (k₂ : Nat), (cn.best_child σ₂ k₂).1 = x)) ∧
    (∀ (n : Node), ¬ n.children = [] →
      n.best_child ∈ n.children ∧
      ∀ x ∈ n.children,
        uctScore n.visits x ≤ uctScore n.visits n.best_child) := by
  constructor
  · intro cn σ k hch
    obtain ⟨_, i2, i3, i4, i5, _, _, i8⟩ :=
      bestLoop_spec cn.children ⊥ [] cn.visits (by simp)
    have hrlne : ¬ (bestLoop cn.visits cn.children ⊥ []).2 = [] := by
      obtain ⟨c₀, hc₀⟩ := List.exists_mem_of_ne_nil _ hch
      exact i8 ⟨c₀, hc₀, Ne.bot_lt (cScore_ne_bot cn.visits c₀)⟩
    have hlen : 0 < (bestLoop cn.visits cn.children ⊥ []).2.length :=
      List.length_pos.mpr hrlne
    have hresult : ∀ (σ₂ : Rand) (k₂ : Nat), (cn.best_child σ₂ k₂).1 ∈
        (bestLoop cn.visits cn.children ⊥ []).2 := by
      intro σ₂ k₂
      have hidx : σ₂ k₂ % (bestLoop cn.visits cn.children ⊥ []).2.length <
          (bestLoop cn.visits cn.children ⊥ []).2.length := Nat.mod_lt _ hlen
      simp only [CNode.best_child, rchoice]
      rw [List.getD_eq_getElem _ _ hidx]
      exact List.getElem_mem _
    have hmem : (cn.best_child σ k).1 ∈ cn.children := by
      rcases i4 _ (hresult σ k) with h1 | h1
      · exact absurd h1 (by simp)
      · exact h1
    have hsc : cScore cn.visits (cn.best_child σ k).1 =
        (bestLoop cn.visits cn.children ⊥ []).1 := i3 _ (hresult σ k)
    refine ⟨hmem, ?_, ?_, ?_⟩
    · intro x hx
      rw [hsc]
      exact i2 x hx
    · rintro ⟨u, hu, hvu⟩
      have htop : cScore cn.visits u = ⊤ := (cScore_eq_top_iff _ _).mpr hvu
      have hrs : (bestLoop cn.visits cn.children ⊥ []).1 = ⊤ :=
        top_le_iff.mp (htop ▸ i2 u hu)
      exact (cScore_eq_top_iff _ _).mp (by rw [hsc, hrs])
    · intro x hx hxsc
      have hxrl : x ∈ (bestLoop cn.visits cn.children ⊥ []).2 :=
        i5 x hx (by rw [hxsc, hsc])
      obtain ⟨j, hj, hget⟩ := List.mem_iff_getElem.mp hxrl
      refine ⟨fun _ => j, 0, ?_⟩
      simp only [CNode.best_child, rchoice]
      rw [Nat.mod_eq_of_lt hj, List.getD_eq_getElem _ _ hj]
      exact hget
  · intro n hch
    exact best_child_spec n hch

def wCNchild : CNode := .mk (some 0) [] 0 0

def wCN : CNode := .mk none [wCNchild] 1 0

def wNchild : Node := .mk Connect4State.new (some 0) [] 1 (1/2) []

def wN : Node := .mk Connect4State.new none [wNchild] 1 (1/2) []

theorem claim_C2_witness :
    (¬ wCN.children = []) ∧
    ((wCN.best_child σ0 0).1 ∈ wCN.children ∧
      (∀ x ∈ wCN.children,
        cScore wCN.visits x ≤ cScore wCN.visits (wCN.best_child σ0 0).1) ∧
      ((∃ u ∈ wCN.children, u.visits = 0) →
        ((wCN.best_child σ0 0).1).visits = 0) ∧
      (∀ x ∈ wCN.children,
        cScore wCN.visits x = cScore wCN.visits (wCN.best_child σ0 0).1 →
        ∃ (σ₂ : Rand) (k₂ : Nat), (wCN.best_child σ₂ k₂).1 = x)) ∧
    (¬ wN.children = []) ∧
    (wN.best_child ∈ wN.children ∧
      ∀ x ∈ wN.children,
        uctScore wN.visits x ≤ uctScore wN.visits wN.best_child) :=
  ⟨by simp [wCN], claim_C2.1 wCN σ0 0 (by simp [wCN]),
    by simp [wN], claim_C2.2 wN (by simp [wN])⟩

def bA : Node := .mk Connect4State.new (some 1) [] 1 (1/2) []

def bB : Node := .mk Connect4State.new (some 2) [] 1 (1/2) []

def bParent : Node := .mk Connect4State.new none [bA, bB] 2 1 []

/-- Counterexample to claim C2: in `mcts.py`, `best_child` on a node with
two children of exactly equal UCT score always returns the first one — the
second tied child is never selected for any RNG state, so ties are not
broken uniformly at random; moreover the function consults no RNG at all. -/
theorem claim_C2_cex :
    Node.best_child bParent = bA ∧ bB ∈ bParent.children ∧
      uctScore bParent.visits bA = uctScore bParent.visits bB ∧
      bA.move ≠ bB.move := by
  have hsc : uctScore (2 : Nat) bB = uctScore (2 : Nat) bA := rfl
  refine ⟨?_, by simp [bParent], rfl, by decide⟩
  simp only [Node.best_child, Node.bestChildIdx, bParent, Node.children_mk,
    Node.visits_mk, argmaxFrom, hsc, gt_iff_lt, lt_self_iff_false, if_false,
    List.getD_cons_zero]

/-! ### Claim C6: iteration shape and root visit count -/

lemma iterF_succ_shape (σ : Rand) (rp : Nat) (f : Nat) (n : Node) (k : Nat) :
    (iterF σ rp (f + 1) n k).1.visits = n.visits + 1 ∧
    (iterF σ rp (f + 1) n k).1.wins = n.wins + (iterF σ rp (f + 1) n k).2.1 ∧
    (iterF σ rp (f + 1) n k).1.state = n.state ∧
    (iterF σ rp (f + 1) n k).1.move = n.move := by
  simp only [iterF]
  split
  · rcases h : iterF σ rp f (n.children.getD n.bestChildIdx default) k with
      ⟨c₁, r, k₁⟩
    simp [h]
  · split
    · rcases h : rchoice σ k n.untried_moves with ⟨m, k₁⟩
      rcases h2 : rollout σ (n.state.clone.make_move m).1 rp k₁ with ⟨r, k₂⟩
      simp [h, h2]
    · rcases h : rollout σ n.state rp k with ⟨r, k₁⟩
      simp [h]

lemma iterate_shape (σ : Rand) (rp : Nat) (t : Node) (k : Nat) :
    (iterate σ rp t k).1.visits = t.visits + 1 ∧
    (iterate σ rp t k).1.wins = t.wins + (iterate σ rp t k).2.1 := by
  unfold iterate
  exact ⟨(iterF_succ_shape σ rp (sizeOf t) t k).1,
    (iterF_succ_shape σ rp (sizeOf t) t k).2.1⟩

lemma mctsLoop_visits (σ : Rand) (rp : Nat) :
    ∀ (n : Nat) (t : Node) (k : Nat),
    (mctsLoop σ rp n t k).1.visits = t.visits + n := by
  intro n
  induction n with
  | zero => intro t k; simp [mctsLoop]
  | succ m ih =>
      intro t k
      simp only [mctsLoop]
      rcases h : iterate σ rp t k with ⟨t₁, r, k₁⟩
      have hv : t₁.visits = t.visits + 1 := by
        have := (iterate_shape σ rp t k).1
        rw [h] at this
        exact this
      rw [ih t₁ k₁, hv]
      omega

/-- Claim C6: for a non-terminal root and any budget of at least one
iteration, the root's visit count after the loop equals exactly `n_iter`,
because each iteration's backpropagation increments the visit count of
every node on the path — in particular the root — by exactly 1 while adding
the iteration's reward to its wins. -/
theorem claim_C6 (s : Connect4State) (n : Nat) (σ : Rand) (k : Nat)
    (h : s.is_terminal = false) (hn : 1 ≤ n) :
    (treeAfter s n σ k).visits = n ∧
    ∀ (rp : Nat) (t : Node) (κ : Nat),
      (iterate σ rp t κ).1.visits = t.visits + 1 ∧
      (iterate σ rp t κ).1.wins = t.wins + (iterate σ rp t κ).2.1 := by
  constructor
  · unfold treeAfter
    rw [mctsLoop_visits]
    simp [Node.make]
  · exact fun rp t κ => iterate_shape σ rp t κ

theorem claim_C6_witness :
    exRunState.is_terminal = false ∧ 1 ≤ 1 ∧
      ((treeAfter exRunState 1 σ0 0).visits = 1 ∧
      ∀ (rp : Nat) (t : Node) (κ : Nat),
        (iterate σ0 rp t κ).1.visits = t.visits + 1 ∧
        (iterate σ0 rp t κ).1.wins = t.wins + (iterate σ0 rp t κ).2.1) :=
  ⟨by decide, by decide, claim_C6 exRunState 1 σ0 0 (by decide) (by decide)⟩

/-! ### Invariants of the search loop; claims C7, C10, C4 -/

/-! ### Counting and bound invariants of the search tree -/

/-- Per-node counting invariant maintained by the search loop: wins lie
between 0 and the visit count, and a node that has acquired children — and
every child ever attached — has been visited at least once (each child is
backpropagated in the iteration that creates it). -/
def NodeBoundInv (x : Node) : Prop :=
  0 ≤ x.wins ∧ x.wins ≤ (x.visits : ℚ) ∧
  (¬ x.children = [] → 1 ≤ x.visits) ∧
  (∀ c ∈ x.children, 1 ≤ c.visits)

def TreeInv (t : Node) : Prop := ∀ x, InTree t x → NodeBoundInv x

lemma treeInv_self {t : Node} (h : TreeInv t) : NodeBoundInv t :=
  h t (InTree.base t)

lemma treeInv_child {t c : Node} (h : TreeInv t) (hc : c ∈ t.children) :
    TreeInv c :=
  fun x hx => h x (InTree.step hc hx)

lemma rollout_reward_cases (σ : Rand) (s : Connect4State) (rp k : Nat) :
    (rollout σ s rp k).1 = 1 ∨ (rollout σ s rp k).1 = 1/2 ∨
      (rollout σ s rp k).1 = 0 := by
  unfold rollout
  rcases h : rolloutLoop σ (ROWS * COLS + 1) s.clone k with ⟨t, k₁⟩
  rcases hw : t.check_winner with _ | w
  · simp [h, hw]
  · by_cases hrp : w = rp <;> simp [h, hw, hrp]

lemma rollout_reward_nonneg (σ : Rand) (s : Connect4State) (rp k : Nat) :
    0 ≤ (rollout σ s rp k).1 := by
  rcases rollout_reward_cases σ s rp k with h | h | h <;> rw [h] <;> norm_num

lemma rollout_reward_le_one (σ : Rand) (s : Connect4State) (rp k : Nat) :
    (rollout σ s rp k).1 ≤ 1 := by
  rcases rollout_reward_cases σ s rp k with h | h | h <;> rw [h] <;> norm_num

lemma argmaxFrom_lt (pv : Nat) : ∀ (cs : List Node) (bi : Nat) (bs : Node)
    (i B : Nat), bi < B → i + cs.length ≤ B →
    argmaxFrom pv bi bs i cs < B := by
  intro cs
  induction cs with
  | nil => intro bi bs i B h1 _; simpa [argmaxFrom] using h1
  | cons c cs ih =>
      intro bi bs i B h1 h2
      simp only [List.length_cons] at h2
      simp only [argmaxFrom]
      split
      · exact ih i c (i + 1) B (by omega) (by omega)
      · exact ih bi bs (i + 1) B h1 (by omega)

lemma bestChildIdx_lt (n : Node) (h : ¬ n.children = []) :
    n.bestChildIdx < n.children.length := by
  rcases hch : n.children with _ | ⟨c, cs⟩
  · exact absurd hch h
  · simp only [Node.bestChildIdx, hch, List.length_cons]
    exact argmaxFrom_lt n.visits cs 0 c 1 (cs.length + 1) (by omega) (by omega)

lemma best_getD_mem (n : Node) (h : ¬ n.children = []) :
    n.children.getD n.bestChildIdx default ∈ n.children := by
  rw [List.getD_eq_getElem _ _ (bestChildIdx_lt n h)]
  exact List.getElem_mem _

lemma iterF_preserves (σ : Rand) (rp : Nat) : ∀ (f : Nat) (n : Node) (k : Nat),
    TreeInv n →
    TreeInv (iterF σ rp f n k).1 ∧
    0 ≤ (iterF σ rp f n k).2.1 ∧ (iterF σ rp f n k).2.1 ≤ 1 ∧
    n.children.length ≤ (iterF σ rp f n k).1.children.length ∧
    n.visits ≤ (iterF σ rp f n k).1.visits := by
  intro f
  induction f with
  | zero =>
      intro n k hInv
      simpa [iterF] using hInv
  | succ f ih =>
      intro n k hInv
      simp only [iterF]
      split
      · -- Selection branch
        rename_i hcond
        rw [Bool.and_eq_true] at hcond
        have hchne : ¬ n.children = [] := by
          intro hnil
          have := hcond.2
          rw [hnil] at this
          simp at this
        have hmem := best_getD_mem n hchne
        rcases hit : iterF σ rp f (n.children.getD n.bestChildIdx default) k
          with ⟨c₁, r, k₁⟩
        have IH := ih (n.children.getD n.bestChildIdx default) k
          (treeInv_child hInv hmem)
        rw [hit] at IH
        obtain ⟨IHt, IHr0, IHr1, IHlen, IHvis⟩ := IH
        simp only at IHt IHr0 IHr1 IHlen IHvis
        refine ⟨?_, by simpa using IHr0, by simpa using IHr1,
          by simp [List.length_set], by simp⟩
        intro x hx
        rcases inTree_cases hx with hx1 | ⟨cc, hcc, hcx⟩
        · subst hx1
          obtain ⟨j1, j2, j3, j4⟩ := treeInv_self hInv
          refine ⟨?_, ?_, ?_, ?_⟩
          · simp only [Node.wins_mk]
            exact add_nonneg j1 IHr0
          · simp only [Node.wins_mk, Node.visits_mk]
            push_cast
            linarith
          · simp only [Node.visits_mk]
            omega
          · simp only [Node.children_mk, Node.visits_mk]
            intro cc hcc
            rcases List.mem_or_eq_of_mem_set hcc with hcc1 | hcc1
            · exact j4 cc hcc1
            · subst hcc1
              exact le_trans (j4 _ hmem) IHvis
        · simp only [Node.children_mk] at hcc
          rcases List.mem_or_eq_of_mem_set hcc with hcc1 | hcc1
          · exact hInv x (InTree.step hcc1 hcx)
          · subst hcc1
            exact IHt x hcx
      · split
        · -- Expansion branch
          rename_i hcond1 hcond2
          have huntne : ¬ n.untried_moves = [] := by
            intro hnil
            rw [Bool.not_eq_eq_eq_not] at hcond2
            simp only [Bool.not_true] at hcond2
            rw [hnil] at hcond2
            simp at hcond2
          rcases hch : rchoice σ k n.untried_moves with ⟨m, k₁⟩
          rcases hrol : rollout σ ((n.state.clone.make_move (m, k₁).1).1) rp
            ((m, k₁).2) with ⟨r, k₂⟩
          have hr0 : 0 ≤ r := by
            have := rollout_reward_nonneg σ
              ((n.state.clone.make_move (m, k₁).1).1) rp ((m, k₁).2)
            rw [hrol] at this
            exact this
          have hr1 : r ≤ 1 := by
            have := rollout_reward_le_one σ
              ((n.state.clone.make_move (m, k₁).1).1) rp ((m, k₁).2)
            rw [hrol] at this
            exact this
          refine ⟨?_, by simpa using hr0, by simpa using hr1,
            by simp, by simp⟩
          intro x hx
          rcases inTree_cases hx with hx1 | ⟨cc, hcc, hcx⟩
          · subst hx1
            obtain ⟨j1, j2, j3, j4⟩ := treeInv_self hInv
            refine ⟨?_, ?_, ?_, ?_⟩
            · simp only [Node.wins_mk]
              exact add_nonneg j1 hr0
            · simp only [Node.wins_mk, Node.visits_mk]
              push_cast
              linarith
            · simp only [Node.visits_mk]
              omega
            · simp only [Node.children_mk, Node.visits_mk]
              intro cc hcc
              rcases List.mem_append.mp hcc with hcc1 | hcc1
              · exact j4 cc hcc1
              · simp only [List.mem_singleton] at hcc1
                subst hcc1
                simp [Node.make]
          · simp only [Node.children_mk] at hcc
            rcases List.mem_append.mp hcc with hcc1 | hcc1
            · exact hInv x (InTree.step hcc1 hcx)
            · simp only [List.mem_singleton] at hcc1
              subst hcc1
              rcases inTree_cases hcx with hx2 | ⟨dd, hdd, _⟩
              · subst hx2
                refine ⟨?_, ?_, ?_, ?_⟩
                · simp only [Node.wins_mk, Node.make]
                  simpa using hr0
                · simp only [Node.wins_mk, Node.visits_mk, Node.make]
                  push_cast
                  simpa using hr1
                · simp [Node.make]
                · simp [Node.make]
              · simp [Node.make] at hdd
        · -- Leaf simulation branch
          rename_i hcond1 hcond2
          rcases hrol : rollout σ n.state rp k with ⟨r, k₁⟩
          have hr0 : 0 ≤ r := by
            have := rollout_reward_nonneg σ n.state rp k
            rw [hrol] at this
            exact this
          have hr1 : r ≤ 1 := by
            have := rollout_reward_le_one σ n.state rp k
            rw [hrol] at this
            exact this
          refine ⟨?_, by simpa using hr0, by simpa using hr1,
            by simp, by simp⟩
          intro x hx
          rcases inTree_cases hx with hx1 | ⟨cc, hcc, hcx⟩
          · subst hx1
            obtain ⟨j1, j2, j3, j4⟩ := treeInv_self hInv
            refine ⟨?_, ?_, ?_, ?_⟩
            · simp only [Node.wins_mk]
              exact add_nonneg j1 hr0
            · simp only [Node.wins_mk, Node.visits_mk]
              push_cast
              linarith
            · simp only [Node.visits_mk]
              omega
            · simp only [Node.children_mk, Node.visits_mk]
              exact j4
          · simp only [Node.children_mk] at hcc
            exact hInv x (InTree.step hcc hcx)

lemma treeInv_make (s : Connect4State) (mv : Option Nat) :
    TreeInv (Node.make s mv) := by
  intro x hx
  rcases inTree_cases hx with hx1 | ⟨cc, hcc, _⟩
  · subst hx1
    refine ⟨le_refl _, by simp [Node.make], ?_, by simp [Node.make]⟩
    intro hne
    exact absurd (show (Node.make s mv).children = [] by simp [Node.make]) hne
  · simp [Node.make] at hcc

lemma iterate_preserves (σ : Rand) (rp : Nat) (t : Node) (k : Nat)
    (h : TreeInv t) :
    TreeInv (iterate σ rp t k).1 ∧
    t.children.length ≤ (iterate σ rp t k).1.children.length := by
  unfold iterate
  obtain ⟨h1, _, _, h4, _⟩ := iterF_preserves σ rp (sizeOf t + 1) t k h
  exact ⟨h1, h4⟩

lemma mctsLoop_preserves (σ : Rand) (rp : Nat) : ∀ (n : Nat) (t : Node)
    (k : Nat), TreeInv t →
    TreeInv (mctsLoop σ rp n t k).1 ∧
    t.children.length ≤ (mctsLoop σ rp n t k).1.children.length := by
  intro n
  induction n with
  | zero => intro t k h; simpa [mctsLoop] using h
  | succ m ih =>
      intro t k h
      simp only [mctsLoop]
      rcases hit : iterate σ rp t k with ⟨t₁, r, k₁⟩
      have hpres := iterate_preserves σ rp t k h
      rw [hit] at hpres
      obtain ⟨hInv₁, hlen₁⟩ := hpres
      obtain ⟨hInv₂, hlen₂⟩ := ih t₁ k₁ hInv₁
      exact ⟨hInv₂, le_trans hlen₁ hlen₂⟩

lemma legal_ne_nil (s : Connect4State) (h : s.is_terminal = false) :
    ¬ s.get_legal_moves = [] := by
  unfold Connect4State.is_terminal at h
  rw [Bool.or_eq_false_iff] at h
  have hfull := h.2
  unfold Connect4State.is_full at hfull
  rcases List.all_eq_false.mp hfull with ⟨c, hc, hcell⟩
  rw [Bool.not_eq_true, bne_eq_false_iff_eq] at hcell
  exact List.ne_nil_of_mem (List.mem_filter.mpr ⟨hc, by simp [hcell]⟩)

/-- One iteration attaches exactly one new child when the node where
selection stops still has untried moves — regardless of whether the node's
state is terminal — and attaches none otherwise. -/
lemma iterF_succ_children (σ : Rand) (rp f : Nat) (n : Node) (k : Nat) :
    (iterF σ rp (f + 1) n k).1.children.length =
      (if n.untried_moves.isEmpty then n.children.length
        else n.children.length + 1) := by
  simp only [iterF]
  split
  · rename_i hcond
    rw [Bool.and_eq_true] at hcond
    have hu : n.untried_moves.isEmpty = true := hcond.1
    rcases h : iterF σ rp f (n.children.getD n.bestChildIdx default) k
      with ⟨c₁, r, k₁⟩
    simp [hu, List.length_set]
  · split
    · rename_i hc1 hc2
      have hu : n.untried_moves.isEmpty = false := by simpa using hc2
      rcases hch : rchoice σ k n.untried_moves with ⟨m, k₁⟩
      rcases hrol : rollout σ ((n.state.clone.make_move (m, k₁).1).1) rp
        ((m, k₁).2) with ⟨r, k₂⟩
      simp [hu]
    · rename_i hc1 hc2
      have hu : n.untried_moves.isEmpty = true := by simpa using hc2
      rcases hrol : rollout σ n.state rp k with ⟨r, k₁⟩
      simp [hu]

lemma iterF_expand_length (σ : Rand) (rp f : Nat) (n : Node) (k : Nat)
    (h : ¬ n.untried_moves = []) :
    (iterF σ rp (f + 1) n k).1.children.length = n.children.length + 1 := by
  rw [iterF_succ_children]
  have hu : n.untried_moves.isEmpty = false := by
    rcases hl : n.untried_moves with _ | ⟨a, l⟩
    · exact absurd hl h
    · rfl
  simp [hu]

lemma treeAfter_children_ne_nil (s : Connect4State) (σ : Rand) (k : Nat)
    (h : s.is_terminal = false) : ∀ (n : Nat), 1 ≤ n →
    ¬ (treeAfter s n σ k).children = [] := by
  intro n hn
  rcases n with _ | m
  · omega
  · unfold treeAfter
    simp only [mctsLoop]
    rcases hit : iterate σ s.current_player (Node.make s.clone none) k
      with ⟨t₁, r, k₁⟩
    have hlen1 : t₁.children.length = 1 := by
      have : (iterate σ s.current_player (Node.make s.clone none) k).1.children.length
          = (Node.make s.clone none).children.length + 1 := by
        unfold iterate
        exact iterF_expand_length σ s.current_player _ _ k
          (by simpa [Node.make, Connect4State.clone] using legal_ne_nil s h)
      rw [hit] at this
      simpa [Node.make] using this
    have hInv₁ : TreeInv t₁ := by
      have := (iterate_preserves σ s.current_player (Node.make s.clone none) k
        (treeInv_make _ _)).1
      rw [hit] at this
      exact this
    have hmono := (mctsLoop_preserves σ s.current_player m t₁ k₁ hInv₁).2
    intro hnil
    rw [hnil] at hmono
    simp only [List.length_nil] at hmono
    omega

/-- Claim C7: for a non-terminal root and a positive budget, every win rate
in the returned statistics lies in `[0, 1]` (backpropagation adds a reward
from `{0, 1/2, 1}` per visit, so wins never exceed visits), every reported
visit count is a non-negative natural number, and at the statistics
snapshot the root has at least one child with a positive visit count. -/
theorem claim_C7 (s : Connect4State) (n : Nat) (σ : Rand) (k : Nat)
    (h : s.is_terminal = false) (hn : 1 ≤ n) :
    (∀ p ∈ (mcts_search s n σ k).1.2.win_rates, 0 ≤ p.2 ∧ p.2 ≤ 1) ∧
    (∀ p ∈ (mcts_search s n σ k).1.2.visits, 0 ≤ p.2) ∧
    ∃ c ∈ (treeAfter s n σ k).children, 1 ≤ c.visits := by
  have hInv : TreeInv (treeAfter s n σ k) := by
    unfold treeAfter
    exact (mctsLoop_preserves σ s.current_player n _ k (treeInv_make _ _)).1
  have hne := treeAfter_children_ne_nil s σ k h n hn
  refine ⟨?_, fun p _ => Nat.zero_le _, ?_⟩
  · intro p hp
    have hstats : (mcts_search s n σ k).1.2 = collectStats (treeAfter s n σ k) := by
      simp [mcts_search, h]
    rw [hstats] at hp
    simp only [collectStats, List.mem_map] at hp
    obtain ⟨c, hc, hpc⟩ := hp
    have hnb : NodeBoundInv c := hInv c (InTree.step hc (InTree.base c))
    obtain ⟨j1, j2, _, _⟩ := hnb
    rcases Nat.eq_zero_or_pos c.visits with hv | hv
    · rw [← hpc]
      simp [hv]
    · rw [← hpc]
      simp only [hv, if_pos]
      have hvq : (0 : ℚ) < (c.visits : ℚ) := by exact_mod_cast hv
      constructor
      · exact div_nonneg j1 (le_of_lt hvq)
      · rw [div_le_one hvq]
        exact j2
  · obtain ⟨c, hc⟩ := List.exists_mem_of_ne_nil _ hne
    exact ⟨c, hc, (treeInv_self hInv).2.2.2 c hc⟩

theorem claim_C7_witness :
    exRunState.is_terminal = false ∧ 1 ≤ 1 ∧
    ((∀ p ∈ (mcts_search exRunState 1 σ0 0).1.2.win_rates,
        0 ≤ p.2 ∧ p.2 ≤ 1) ∧
      (∀ p ∈ (mcts_search exRunState 1 σ0 0).1.2.visits, 0 ≤ p.2) ∧
      ∃ c ∈ (treeAfter exRunState 1 σ0 0).children, 1 ≤ c.visits) :=
  ⟨by decide, by decide, claim_C7 exRunState 1 σ0 0 (by decide) (by decide)⟩

/-- Claim C10: in every tree reachable by the search loop from a
non-terminal root, any node satisfying the selection condition (fully
expanded with at least one child) has a positive visit count, and so does
each of its children: each child is backpropagated once in the iteration
creating it, before any later selection can reach it.  Hence the divisions
`wins/visits` and the logarithm of the parent visit count in `best_child`
are always applied to positive counts, even though `best_child` itself has
no zero-visit guard. -/
theorem claim_C10 (s : Connect4State) (n : Nat) (σ : Rand) (k : Nat)
    (nd : Node) (h : s.is_terminal = false)
    (ht : InTree (treeAfter s n σ k) nd)
    (h1 : nd.is_fully_expanded = true) (h2 : ¬ nd.children = []) :
    1 ≤ nd.visits ∧ ∀ c ∈ nd.children, 1 ≤ c.visits := by
  have hInv : TreeInv (treeAfter s n σ k) := by
    unfold treeAfter
    exact (mctsLoop_preserves σ s.current_player n _ k (treeInv_make _ _)).1
  obtain ⟨_, _, j3, j4⟩ := hInv nd ht
  exact ⟨j3 h2, j4⟩

theorem claim_C10_witness :
    exRunState.is_terminal = false ∧
    (treeAfter exRunState 2 σ0 0).is_fully_expanded = true ∧
    (¬ (treeAfter exRunState 2 σ0 0).children = []) ∧
    (1 ≤ (treeAfter exRunState 2 σ0 0).visits ∧
      ∀ c ∈ (treeAfter exRunState 2 σ0 0).children, 1 ≤ c.visits) :=
  ⟨by decide, by rfl,
    List.ne_nil_of_length_pos (by
      show 0 < (treeAfter exRunState 2 σ0 0).children.length
      rw [show (treeAfter exRunState 2 σ0 0).children.length = 1 from rfl]
      decide),
    claim_C10 exRunState 2 σ0 0 (treeAfter exRunState 2 σ0 0) (by decide)
      (InTree.base _) (by rfl)
      (List.ne_nil_of_length_pos (by
        show 0 < (treeAfter exRunState 2 σ0 0).children.length
        rw [show (treeAfter exRunState 2 σ0 0).children.length = 1 from rfl]
        decide))⟩

/-- Claim C4 as amended: in `mcts.py` the selection loop tests only that the
node is fully expanded and has children, and expansion is guarded only by
the presence of untried moves — neither phase tests terminality.  One
iteration therefore attaches exactly one new child whenever the stopping
node has untried moves (even when its state is terminal), and attaches none
otherwise; a child can thus be created below a node whose state is terminal
but whose board still has open columns. -/
theorem claim_C4 (σ : Rand) (rp f : Nat) (n : Node) (k : Nat) :
    (¬ n.untried_moves = [] →
      (iterF σ rp (f + 1) n k).1.children.length = n.children.length + 1) ∧
    (n.untried_moves = [] →
      (iterF σ rp (f + 1) n k).1.children.length = n.children.length) := by
  refine ⟨iterF_expand_length σ rp f n k, fun h => ?_⟩
  rw [iterF_succ_children]
  simp [h]

theorem claim_C4_witness :
    (¬ (Node.make exC4State.clone none).untried_moves = []) ∧
    (iterF σ0 1 1 (Node.make exC4State.clone none) 0).1.children.length =
      (Node.make exC4State.clone none).children.length + 1 :=
  ⟨by decide, (claim_C4 σ0 1 0 (Node.make exC4State.clone none) 0).1
    (by decide)⟩

/-- Counterexample to claim C4: starting `mcts_search` of `mcts.py` on the
non-terminal state `exC4State` (one legal column whose play wins at once
while leaving the column open), the second iteration selects the terminal
child and expands it: after two iterations the root's single child has a
terminal state and itself has a child — a node was created below a terminal
node. -/
theorem claim_C4_cex :
    exC4State.is_terminal = false ∧
    ((treeAfter exC4State 2 σ0 0).children.headD default).state.is_terminal
      = true ∧
    ((treeAfter exC4State 2 σ0 0).children.headD default).children.length
      = 1 ∧
    (treeAfter exC4State 2 σ0 0).children.length = 1 :=
  ⟨by decide, by rfl, by rfl, by rfl⟩

end GameTech
